import Mathlib

/-!
Verification of the `InventorySystem` inventory ledger
(`src/inventory_system.py`).

The Stock Map (`self.stock_data`, a Python `dict` from item name to
integer quantity) is embedded as an insertion-ordered association list
`List (String × Int)` with the `dict` operations: lookup, in-place
update / append (`d[k] = v`), and deletion (`del d[k]`).

Python is dynamically typed and `add_item` / `remove_item` validate the
runtime types of their arguments with `isinstance`; argument values are
therefore embedded as a dynamic type `PyVal` in which, as in Python,
booleans count as integers (`isinstance(True, int)` is `True`).

Logging: the ledger's contract only fixes which events emit which
severity level, so each operation returns the list of severity levels of
the log records it emits, alongside its result.

File persistence: `save_data` / `load_data` delegate the byte-level work
to Python's `json` library and the OS, which are not part of this
repository.  Following the spec's file-format section ("a single JSON
object at the file's top level, keys are item names (text), values are
integers"), the file system is modelled as a partial map from path to
file content, where a content is either a well-formed JSON object with
integer values or invalid JSON text; `json.loads` on a JSON object text
builds the dictionary entry by entry in textual order with
last-occurrence-wins semantics for duplicate keys, and `json.dumps` of a
dict emits its entries in insertion order.
-/

/-- Severity level of an emitted log record (`logging.info` /
`logging.warning` / `logging.error`). -/
inductive LogLevel where
  | info
  | warning
  | error
deriving DecidableEq, Repr

/-- A Python runtime value as far as the ledger's `isinstance` checks
can distinguish them: a text value, an integer, a boolean (which Python
treats as an integer), or any other value. -/
inductive PyVal where
  | vStr (s : String)
  | vInt (n : Int)
  | vBool (b : Bool)
  | vOther
deriving DecidableEq, Repr

/-- `isinstance(x, str)`. -/
def PyVal.isStr : PyVal → Bool
  | .vStr _ => true
  | _ => false

/-- `isinstance(x, int)`: true for integers and for booleans, since
`bool` is a subclass of `int` in Python. -/
def PyVal.isInt : PyVal → Bool
  | .vInt _ => true
  | .vBool _ => true
  | _ => false

/-- The integer value of an integer-typed Python value
(`True` is `1`, `False` is `0`).  Only applied under `isInt`. -/
def PyVal.toInt : PyVal → Int
  | .vInt n => n
  | .vBool b => if b then 1 else 0
  | _ => 0

/-- The Stock Map: a Python `dict` from item name to integer quantity,
embedded as an insertion-ordered association list. -/
abbrev Stock := List (String × Int)

/-- `d.get(k)` as an `Option`: the value at the first (in a `dict`,
only) occurrence of key `k`. -/
def Stock.get : Stock → String → Option Int
  | [], _ => none
  | (k', v') :: t, k => if k' = k then some v' else Stock.get t k

/-- `d.get(k, v0)`: lookup with default. -/
def Stock.getD (d : Stock) (k : String) (v0 : Int) : Int :=
  (Stock.get d k).getD v0

/-- `d[k] = v`: update the entry for `k` in place if present (keeping
its position), else append a new entry, as a Python `dict` does. -/
def Stock.set : Stock → String → Int → Stock
  | [], k, v => [(k, v)]
  | (k', v') :: t, k, v =>
    if k' = k then (k, v) :: t else (k', v') :: Stock.set t k v

/-- `del d[k]`: remove the entry for `k` (the first occurrence; a
`dict` has at most one). -/
def Stock.del : Stock → String → Stock
  | [], _ => []
  | (k', v') :: t, k => if k' = k then t else (k', v') :: Stock.del t k

/-- The keys of the Stock Map in iteration (insertion) order. -/
def Stock.keys (d : Stock) : List String :=
  d.map Prod.fst

/-- Well-formedness of the embedding: a Python `dict` cannot hold the
same key twice. Every `Stock` actually reachable through `dict`
operations satisfies this. -/
def Stock.wf (d : Stock) : Prop :=
  (Stock.keys d).Nodup

instance (d : Stock) : Decidable (Stock.wf d) :=
  inferInstanceAs (Decidable (Stock.keys d).Nodup)

/-- The spec's Stock-Map invariant: no entry has a quantity `≤ 0`. -/
def Stock.allPos (d : Stock) : Prop :=
  ∀ p ∈ d, 0 < p.2

instance (d : Stock) : Decidable (Stock.allPos d) :=
  inferInstanceAs (Decidable (∀ p ∈ d, 0 < p.2))

/-- `InventorySystem.add_item(item, qty)` acting on the Stock Map.
Returns the new Stock Map and the severity levels of the log records
emitted.  Direct translation of `src/inventory_system.py` lines 18-35:
reject (warning, no change) unless `item` is a string different from
the sentinel `"default"` and `qty` is integer-typed; otherwise
`self.stock_data[item] = self.stock_data.get(item, 0) + qty` and an
info record. -/
def add_item (stock : Stock) (item : PyVal) (qty : PyVal) :
    Stock × List LogLevel :=
  match item with
  | .vStr s =>
    if s = "default" then
      (stock, [.warning])
    else if ¬ qty.isInt then
      (stock, [.warning])
    else
      (Stock.set stock s (Stock.getD stock s 0 + qty.toInt), [.info])
  | _ => (stock, [.warning])

/-- `InventorySystem.remove_item(item, qty)` acting on the Stock Map.
Direct translation of `src/inventory_system.py` lines 37-55: reject
(warning, no change) unless `item` is a string and `qty` integer-typed;
`self.stock_data[item] -= qty` raises `KeyError` when `item` is absent,
caught and logged as a warning; if the stored quantity after the
subtraction is `≤ 0` the entry is deleted and an info record emitted. -/
def remove_item (stock : Stock) (item : PyVal) (qty : PyVal) :
    Stock × List LogLevel :=
  match item with
  | .vStr s =>
    if ¬ qty.isInt then
      (stock, [.warning])
    else
      match Stock.get stock s with
      | none => (stock, [.warning])
      | some v =>
        let newQty := v - qty.toInt
        let d := Stock.set stock s newQty
        if newQty ≤ 0 then (Stock.del d s, [.info]) else (d, [])
  | _ => (stock, [.warning])

/-- `InventorySystem.get_qty(item)`: the stored quantity, or `0` if the
item is absent (`self.stock_data.get(item, 0)`). -/
def get_qty (stock : Stock) (item : String) : Int :=
  Stock.getD stock item 0

/-- `InventorySystem.check_low_items(threshold)`: the list
comprehension `[item for item in self.stock_data if
self.stock_data[item] < threshold]` — iterate the keys in the map's
iteration order and keep those whose looked-up quantity is strictly
below the threshold.  (The `none` branch is unreachable: every iterated
key is present.) -/
def check_low_items (stock : Stock) (threshold : Int) : List String :=
  (Stock.keys stock).filter fun k =>
    match Stock.get stock k with
    | some v => decide (v < threshold)
    | none => false

/-- A file's content, modelled at the JSON level per the spec's file
format ("a single JSON object at the file's top level, keys are item
names (text), values are integers"): either a JSON object with integer
values, given as its entries in textual order, or text that is not
valid JSON. -/
inductive FileContent where
  | intObj (entries : List (String × Int))
  | invalid
deriving DecidableEq, Repr

/-- The file system: a partial map from path to file content; `none`
means the file does not exist. -/
abbrev FileSystem := String → Option FileContent

/-- Modelled from the spec: `json.loads` applied to a JSON object text
builds a Python `dict` entry by entry in textual order, later
occurrences of a duplicate key overwriting earlier ones. -/
def dictOfEntries (entries : List (String × Int)) : Stock :=
  entries.foldl (fun d p => Stock.set d p.1 p.2) []

/-- `InventorySystem.load_data(file)` acting on the Stock Map given the
file system.  Direct translation of `src/inventory_system.py` lines
69-85: replace the whole Stock Map with the parsed file on success
(info); on `FileNotFoundError` reset it to empty (warning); on
`json.JSONDecodeError` reset it to empty (error). -/
def load_data (fs : FileSystem) (stock : Stock) (file : String) :
    Stock × List LogLevel :=
  match fs file with
  | some (.intObj entries) => (dictOfEntries entries, [.info])
  | none => ([], [.warning])
  | some .invalid => ([], [.error])

/-- `InventorySystem.save_data(file)`: write `json.dumps(self.stock_data,
indent=4)` to `file`, overwriting it.  `json.dumps` of a string-keyed
`dict` with integer values emits a JSON object listing the entries in
insertion order, so on success the file at `file` now holds exactly the
Stock Map's entries; an info record is emitted.  (The `IOError` branch,
which leaves the file system unchanged, is environment-driven; the
success path is modelled.) -/
def save_data (fs : FileSystem) (stock : Stock) (file : String) :
    FileSystem × List LogLevel :=
  (fun f => if f = file then some (.intObj stock) else fs f, [.info])

/-- A state-mutating operation of the ledger (the spec's state machine:
the Stock Map is "transitioned only by `add`, `remove`, and `load`"). -/
inductive Op where
  | add (item qty : PyVal)
  | remove (item qty : PyVal)
  | load (file : String)
deriving Repr

/-- One transition of the ledger state under a fixed file system. -/
def applyOp (fs : FileSystem) (stock : Stock) : Op → Stock
  | .add item qty => (add_item stock item qty).1
  | .remove item qty => (remove_item stock item qty).1
  | .load file => (load_data fs stock file).1

/-- Run a sequence of operations from a starting Stock Map. -/
def runOps (fs : FileSystem) (stock : Stock) (ops : List Op) : Stock :=
  ops.foldl (applyOp fs) stock

/-- An operation that cannot introduce a non-positive quantity: an add
whose quantity, when integer-typed, is positive, a remove, or a load
from a file that is missing, invalid, or holds only positive values. -/
def goodOp (fs : FileSystem) : Op → Bool
  | .add _ qty => !qty.isInt || decide (0 < qty.toInt)
  | .remove _ _ => true
  | .load file =>
    match fs file with
    | some (.intObj entries) => entries.all fun p => decide (0 < p.2)
    | _ => true

example :
    add_item [] (.vStr "apple") (.vInt 10) = ([("apple", 10)], [.info]) := by
  decide

example :
    (remove_item [("apple", 10), ("banana", 2)] (.vStr "apple")
      (.vInt 3)).1 = [("apple", 7), ("banana", 2)] := by
  decide

example :
    check_low_items [("apple", 10), ("banana", 2)] 5 = ["banana"] := by
  decide

example : (remove_item [("apple", 3)] (.vStr "apple") (.vInt 5)).1 = [] := by
  decide

example : add_item [] (.vStr "") (.vInt 5) = ([("", 5)], [.info]) := by
  decide

example :
    runOps (fun _ => none) [] [Op.add (.vStr "a") (.vInt (-5))]
      = [("a", -5)] := by
  decide

/-! ### Lemmas about the Stock Map operations -/

theorem Stock.get_set_self (d : Stock) (k : String) (v : Int) :
    Stock.get (Stock.set d k v) k = some v := by
  induction d with
  | nil => simp [Stock.set, Stock.get]
  | cons p t ih =>
    obtain ⟨k', v'⟩ := p
    by_cases h : k' = k
    · simp [Stock.set, Stock.get, h]
    · simp [Stock.set, Stock.get, h, ih]

theorem Stock.get_set_ne (d : Stock) {k k' : String} (v : Int)
    (h : k' ≠ k) : Stock.get (Stock.set d k v) k' = Stock.get d k' := by
  have h2 : ¬ k = k' := fun hkk => h hkk.symm
  induction d with
  | nil => simp [Stock.set, Stock.get, h2]
  | cons p t ih =>
    obtain ⟨k₀, v₀⟩ := p
    by_cases hk : k₀ = k
    · subst hk
      simp [Stock.set, Stock.get, h2]
    · by_cases hk' : k₀ = k'
      · subst hk'
        simp [Stock.set, Stock.get, hk]
      · simp [Stock.set, Stock.get, hk, hk', ih]

theorem Stock.mem_set {d : Stock} {k : String} {v : Int} {p : String × Int}
    (hp : p ∈ Stock.set d k v) : p = (k, v) ∨ p ∈ d := by
  induction d with
  | nil => simpa [Stock.set] using hp
  | cons q t ih =>
    obtain ⟨k', v'⟩ := q
    by_cases h : k' = k
    · simp only [Stock.set, if_pos h, List.mem_cons] at hp
      rcases hp with hp | hp
      · exact Or.inl hp
      · exact Or.inr (List.mem_cons_of_mem _ hp)
    · simp only [Stock.set, if_neg h, List.mem_cons] at hp
      rcases hp with hp | hp
      · exact Or.inr (by simp [hp])
      · rcases ih hp with hp | hp
        · exact Or.inl hp
        · exact Or.inr (List.mem_cons_of_mem _ hp)

theorem Stock.mem_del {d : Stock} {k : String} {p : String × Int}
    (hp : p ∈ Stock.del d k) : p ∈ d := by
  induction d with
  | nil => simpa [Stock.del] using hp
  | cons q t ih =>
    obtain ⟨k', v'⟩ := q
    by_cases h : k' = k
    · simp only [Stock.del, if_pos h] at hp
      exact List.mem_cons_of_mem _ hp
    · simp only [Stock.del, if_neg h, List.mem_cons] at hp
      rcases hp with hp | hp
      · simp [hp]
      · exact List.mem_cons_of_mem _ (ih hp)

/-- Deleting the key just written removes exactly the written entry:
`del (set d k v) k = del d k`, whether or not `k` was present. -/
theorem Stock.del_set (d : Stock) (k : String) (v : Int) :
    Stock.del (Stock.set d k v) k = Stock.del d k := by
  induction d with
  | nil => simp [Stock.set, Stock.del]
  | cons p t ih =>
    obtain ⟨k', v'⟩ := p
    by_cases h : k' = k
    · simp [Stock.set, Stock.del, h]
    · simp [Stock.set, Stock.del, h, ih]

theorem Stock.get_eq_none_iff {d : Stock} {k : String} :
    Stock.get d k = none ↔ k ∉ Stock.keys d := by
  induction d with
  | nil => simp [Stock.get, Stock.keys]
  | cons p t ih =>
    obtain ⟨k', v'⟩ := p
    by_cases h : k' = k
    · simp [Stock.get, Stock.keys, h]
    · have h2 : ¬ k = k' := fun hkk => h hkk.symm
      simp [Stock.get, Stock.keys, h, ih, h2]

theorem Stock.get_del_self {d : Stock} (hwf : Stock.wf d) (k : String) :
    Stock.get (Stock.del d k) k = none := by
  induction d with
  | nil => simp [Stock.del, Stock.get]
  | cons p t ih =>
    obtain ⟨k', v'⟩ := p
    have hwf' : Stock.wf t := (List.nodup_cons.mp hwf).2
    by_cases h : k' = k
    · subst h
      have : k' ∉ Stock.keys t := (List.nodup_cons.mp hwf).1
      simpa [Stock.del] using Stock.get_eq_none_iff.mpr this
    · simp [Stock.del, Stock.get, h, ih hwf']

theorem Stock.keys_set_of_mem (d : Stock) (k : String) (v : Int)
    (h : k ∈ Stock.keys d) : Stock.keys (Stock.set d k v) = Stock.keys d := by
  induction d with
  | nil => simp [Stock.keys] at h
  | cons p t ih =>
    obtain ⟨k', v'⟩ := p
    by_cases hk : k' = k
    · simp [Stock.set, Stock.keys, hk]
    · have h2 : ¬ k = k' := fun hkk => hk hkk.symm
      have hm : k ∈ Stock.keys t := by
        simpa [Stock.keys, h2] using h
      have ih' := ih hm
      simp only [Stock.keys] at ih'
      simp [Stock.set, Stock.keys, hk, ih']

theorem Stock.keys_set_of_not_mem (d : Stock) (k : String) (v : Int)
    (h : k ∉ Stock.keys d) :
    Stock.keys (Stock.set d k v) = Stock.keys d ++ [k] := by
  induction d with
  | nil => simp [Stock.set, Stock.keys]
  | cons p t ih =>
    obtain ⟨k', v'⟩ := p
    have hk : ¬ k' = k := by
      intro hkk
      exact h (by simp [Stock.keys, hkk])
    have hm : k ∉ Stock.keys t := by
      intro hmem
      exact h (by simp [Stock.keys] at hmem ⊢; exact Or.inr hmem)
    have ih' := ih hm
    simp only [Stock.keys] at ih'
    simp [Stock.set, Stock.keys, hk, ih']

theorem Stock.wf_set {d : Stock} (hwf : Stock.wf d) (k : String) (v : Int) :
    Stock.wf (Stock.set d k v) := by
  by_cases h : k ∈ Stock.keys d
  · unfold Stock.wf
    rw [Stock.keys_set_of_mem d k v h]
    exact hwf
  · unfold Stock.wf
    rw [Stock.keys_set_of_not_mem d k v h]
    refine List.Nodup.append hwf (List.nodup_singleton k) ?_
    intro a ha hb
    have hb' : a = k := by simpa using hb
    exact h (hb' ▸ ha)

theorem Stock.get_mem {d : Stock} {k : String} {v : Int}
    (h : Stock.get d k = some v) : (k, v) ∈ d := by
  induction d with
  | nil => simp [Stock.get] at h
  | cons p t ih =>
    obtain ⟨k', v'⟩ := p
    by_cases hk : k' = k
    · subst hk
      simp [Stock.get] at h
      simp [h]
    · simp only [Stock.get, if_neg hk] at h
      exact List.mem_cons_of_mem _ (ih h)

theorem Stock.allPos_set {d : Stock} (hpos : Stock.allPos d) {v : Int}
    (hv : 0 < v) (k : String) : Stock.allPos (Stock.set d k v) := by
  intro p hp
  rcases Stock.mem_set hp with hp | hp
  · simpa [hp] using hv
  · exact hpos p hp

theorem Stock.allPos_del {d : Stock} (hpos : Stock.allPos d) (k : String) :
    Stock.allPos (Stock.del d k) :=
  fun p hp => hpos p (Stock.mem_del hp)

/-- Writing an absent key appends the new entry at the end. -/
theorem Stock.set_eq_append {d : Stock} {k : String}
    (h : Stock.get d k = none) (v : Int) :
    Stock.set d k v = d ++ [(k, v)] := by
  induction d with
  | nil => simp [Stock.set]
  | cons p t ih =>
    obtain ⟨k', v'⟩ := p
    by_cases hk : k' = k
    · simp [Stock.get, hk] at h
    · simp only [Stock.get, if_neg hk] at h
      simp [Stock.set, hk, ih h]

theorem Stock.foldl_set_eq_append (entries : List (String × Int)) :
    ∀ acc : Stock,
      (Stock.keys acc ++ Stock.keys entries).Nodup →
      entries.foldl (fun d p => Stock.set d p.1 p.2) acc = acc ++ entries := by
  induction entries with
  | nil => intro acc _; simp
  | cons p t ih =>
    intro acc hnd
    obtain ⟨k, v⟩ := p
    have hkacc : k ∉ Stock.keys acc := by
      have := List.disjoint_of_nodup_append hnd
      intro hk
      exact this hk (by simp [Stock.keys])
    have hget : Stock.get acc k = none := Stock.get_eq_none_iff.mpr hkacc
    have hnd' : (Stock.keys (acc ++ [(k, v)]) ++ Stock.keys t).Nodup := by
      have hkeys : Stock.keys (acc ++ [(k, v)])
          = Stock.keys acc ++ [k] := by
        simp [Stock.keys]
      rw [hkeys, List.append_assoc]
      simpa [Stock.keys] using hnd
    calc ((k, v) :: t).foldl (fun d p => Stock.set d p.1 p.2) acc
        = t.foldl (fun d p => Stock.set d p.1 p.2) (Stock.set acc k v) := by
          simp
      _ = t.foldl (fun d p => Stock.set d p.1 p.2) (acc ++ [(k, v)]) := by
          rw [Stock.set_eq_append hget]
      _ = (acc ++ [(k, v)]) ++ t := ih (acc ++ [(k, v)]) hnd'
      _ = acc ++ ((k, v) :: t) := by simp

/-- `json.loads (json.dumps d)` builds back exactly `d` when `d` is a
well-formed dictionary. -/
theorem dictOfEntries_eq_self {d : Stock} (hwf : Stock.wf d) :
    dictOfEntries d = d := by
  unfold dictOfEntries
  have := Stock.foldl_set_eq_append d [] (by simpa [Stock.keys] using hwf)
  simpa using this

theorem dictOfEntries_allPos {entries : List (String × Int)}
    (hpos : ∀ p ∈ entries, 0 < p.2) : Stock.allPos (dictOfEntries entries) := by
  unfold dictOfEntries
  suffices h : ∀ acc : Stock, Stock.allPos acc →
      Stock.allPos (entries.foldl (fun d p => Stock.set d p.1 p.2) acc) from
    h [] (by intro p hp; simp at hp)
  induction entries with
  | nil => intro acc hacc; simpa using hacc
  | cons p t ih =>
    intro acc hacc
    have hp : 0 < p.2 := hpos p (by simp)
    have ht : ∀ q ∈ t, 0 < q.2 := fun q hq => hpos q (by simp [hq])
    simpa using ih ht (Stock.set acc p.1 p.2) (Stock.allPos_set hacc hp p.1)

/-! ### Invariant preservation -/

/-- One ledger transition preserves positivity of all stored
quantities, provided the operation cannot itself introduce a
non-positive value. -/
theorem applyOp_allPos {fs : FileSystem} {stock : Stock} {op : Op}
    (hpos : Stock.allPos stock) (hgood : goodOp fs op = true) :
    Stock.allPos (applyOp fs stock op) := by
  cases op with
  | add item qty =>
    cases item with
    | vStr s =>
      by_cases hs : s = "default"
      · simpa [applyOp, add_item, hs] using hpos
      · by_cases hq : qty.isInt = true
        · have hqpos : 0 < qty.toInt := by
            simp [goodOp, hq] at hgood
            exact hgood
          have hnew : 0 < Stock.getD stock s 0 + qty.toInt := by
            unfold Stock.getD
            cases hg : Stock.get stock s with
            | none => simpa using hqpos
            | some v =>
              have hv : 0 < v := hpos (s, v) (Stock.get_mem hg)
              simp only [Option.getD_some]
              omega
          have := Stock.allPos_set hpos hnew s
          simpa [applyOp, add_item, hs, hq] using this
        · simpa [applyOp, add_item, hs, hq] using hpos
    | vInt n => simpa [applyOp, add_item] using hpos
    | vBool b => simpa [applyOp, add_item] using hpos
    | vOther => simpa [applyOp, add_item] using hpos
  | remove item qty =>
    cases item with
    | vStr s =>
      by_cases hq : qty.isInt = true
      · cases hg : Stock.get stock s with
        | none => simpa [applyOp, remove_item, hq, hg] using hpos
        | some v =>
          by_cases hle : v - qty.toInt ≤ 0
          · have hdel :
                Stock.allPos (Stock.del (Stock.set stock s (v - qty.toInt)) s) := by
              rw [Stock.del_set]
              exact Stock.allPos_del hpos s
            simpa [applyOp, remove_item, hq, hg, hle] using hdel
          · have hlt : 0 < v - qty.toInt := by omega
            have := Stock.allPos_set hpos hlt s
            simpa [applyOp, remove_item, hq, hg, hle] using this
      · simpa [applyOp, remove_item, hq] using hpos
    | vInt n => simpa [applyOp, remove_item] using hpos
    | vBool b => simpa [applyOp, remove_item] using hpos
    | vOther => simpa [applyOp, remove_item] using hpos
  | load file =>
    cases hf : fs file with
    | none =>
      intro p hp
      simp [applyOp, load_data, hf] at hp
    | some c =>
      cases c with
      | invalid =>
        intro p hp
        simp [applyOp, load_data, hf] at hp
      | intObj entries =>
        have hent : ∀ p ∈ entries, 0 < p.2 := by
          simp [goodOp, hf] at hgood
          exact fun p hp => hgood p.1 p.2 hp
        simpa [applyOp, load_data, hf] using dictOfEntries_allPos hent

/-! ### Claim C1 -/

/-- C1, counterexample: the claimed invariant fails on the code as
written.  From the empty Stock Map, the single operation
`add_item("a", -5)` is accepted (`add_item` performs no sign check) and
produces the reachable state `{"a": -5}`, which has an entry with
quantity `≤ 0` that no mutation removes. -/
theorem c1_counterexample :
    runOps (fun _ => none) [] [Op.add (.vStr "a") (.vInt (-5))]
        = [("a", -5)] ∧
      ¬ Stock.allPos
        (runOps (fun _ => none) [] [Op.add (.vStr "a") (.vInt (-5))]) := by
  constructor
  · decide
  · decide

/-- C1, amended: for every reachable state of the Ledger — starting
empty and transitioned by any sequence of add, remove, and load
operations in which every add whose quantity passes the integer type
check has a positive quantity, and every load reads a file that is
missing, invalid, or a JSON object holding only positive values — no
entry of the Stock Map has a quantity `≤ 0`: any remove that would
produce such an entry deletes it immediately (unrestricted `add_item`
with a non-positive quantity, or `load_data` of an object with
non-positive values, can break the invariant, as the counterexample
shows). -/
theorem c1_invariant_good_ops (fs : FileSystem) (ops : List Op)
    (h : ∀ op ∈ ops, goodOp fs op = true) :
    Stock.allPos (runOps fs [] ops) := by
  have main : ∀ (l : List Op) (stock : Stock), Stock.allPos stock →
      (∀ op ∈ l, goodOp fs op = true) →
      Stock.allPos (runOps fs stock l) := by
    intro l
    induction l with
    | nil =>
      intro stock hpos _
      simpa [runOps] using hpos
    | cons op t ih =>
      intro stock hpos hops
      have h1 := hops op (by simp)
      have ht : ∀ o ∈ t, goodOp fs o = true := fun o ho =>
        hops o (by simp [ho])
      simpa [runOps] using ih (applyOp fs stock op) (applyOp_allPos hpos h1) ht
  exact main ops [] (by intro p hp; simp at hp) h

/-- Witness for `c1_invariant_good_ops` at the demo's operation
sequence. -/
theorem c1_invariant_good_ops_witness :
    (∀ op ∈ [Op.add (.vStr "apple") (.vInt 10),
        Op.add (.vStr "banana") (.vInt 2),
        Op.remove (.vStr "apple") (.vInt 3)],
      goodOp (fun _ => none) op = true) ∧
    Stock.allPos (runOps (fun _ => none) []
      [Op.add (.vStr "apple") (.vInt 10),
       Op.add (.vStr "banana") (.vInt 2),
       Op.remove (.vStr "apple") (.vInt 3)]) :=
  ⟨by decide, c1_invariant_good_ops (fun _ => none) _ (by decide)⟩

/-! ### Claim C2 -/

/-- C2: for every Stock Map whose values are all positive integers,
`save_data` to a path followed by `load_data` from the same path yields
a Stock Map equal to the original — same keys, same integer values, in
the same order (`other` is the Stock Map the loading ledger held
before; `load_data` replaces it wholesale). -/
theorem c2_save_load_roundtrip (fs : FileSystem) (stock other : Stock)
    (path : String) (hwf : Stock.wf stock) (hpos : Stock.allPos stock) :
    (load_data (save_data fs stock path).1 other path).1 = stock := by
  have hfile : (save_data fs stock path).1 path = some (.intObj stock) := by
    simp [save_data]
  simp [load_data, hfile, dictOfEntries_eq_self hwf]

/-- Witness for `c2_save_load_roundtrip`. -/
theorem c2_save_load_roundtrip_witness :
    Stock.wf [("apple", 7), ("banana", 2)] ∧
    Stock.allPos [("apple", 7), ("banana", 2)] ∧
    (load_data
        (save_data (fun _ => none) [("apple", 7), ("banana", 2)]
          "inventory.json").1
        [("stale", 1)] "inventory.json").1 = [("apple", 7), ("banana", 2)] :=
  ⟨by decide, by decide,
    c2_save_load_roundtrip (fun _ => none) _ _ _ (by decide) (by decide)⟩

/-! ### Claim C3 -/

/-- C3: for every well-formed Stock Map, every item present in it with
stored quantity `v`, and every integer `qty` with `v - qty ≤ 0`,
`remove_item` deletes the entry entirely: afterwards `get_qty` returns
`0` and the item is absent from `check_low_items`'s output for every
threshold. -/
theorem c3_remove_deletes_entry (stock : Stock) (s : String) (v q : Int)
    (hwf : Stock.wf stock) (hget : Stock.get stock s = some v)
    (hle : v - q ≤ 0) :
    get_qty (remove_item stock (.vStr s) (.vInt q)).1 s = 0 ∧
    ∀ t : Int,
      s ∉ check_low_items (remove_item stock (.vStr s) (.vInt q)).1 t := by
  have hres : (remove_item stock (.vStr s) (.vInt q)).1 = Stock.del stock s := by
    simp [remove_item, hget, PyVal.isInt, PyVal.toInt, hle, Stock.del_set]
  have hnone : Stock.get (Stock.del stock s) s = none :=
    Stock.get_del_self hwf s
  constructor
  · rw [hres]
    simp [get_qty, Stock.getD, hnone]
  · intro t hmem
    rw [hres] at hmem
    simp only [check_low_items] at hmem
    exact (Stock.get_eq_none_iff.mp hnone) (List.mem_of_mem_filter hmem)

/-- Witness for `c3_remove_deletes_entry`. -/
theorem c3_remove_deletes_entry_witness :
    Stock.wf [("apple", 3), ("banana", 2)] ∧
    Stock.get [("apple", 3), ("banana", 2)] "apple" = some 3 ∧
    (3 : Int) - 5 ≤ 0 ∧
    (get_qty (remove_item [("apple", 3), ("banana", 2)]
        (.vStr "apple") (.vInt 5)).1 "apple" = 0 ∧
      ∀ t : Int, "apple" ∉ check_low_items
        (remove_item [("apple", 3), ("banana", 2)]
          (.vStr "apple") (.vInt 5)).1 t) :=
  ⟨by decide, by decide, by decide,
    c3_remove_deletes_entry [("apple", 3), ("banana", 2)] "apple" 3 5
      (by decide) (by decide) (by decide)⟩

/-! ### Claim C4 -/

/-- C4: for every well-formed Stock Map and every threshold,
`check_low_items` returns exactly the item names whose quantity is
strictly less than the threshold, in the Stock Map's insertion order —
items at exactly the threshold are excluded.  The call is a pure query:
it takes the Stock Map and returns only a list of names, so it cannot
mutate the map. -/
theorem c4_check_low_exact (stock : Stock) (threshold : Int)
    (hwf : Stock.wf stock) :
    check_low_items stock threshold
      = (stock.filter fun p => decide (p.2 < threshold)).map Prod.fst := by
  induction stock with
  | nil => simp [check_low_items, Stock.keys]
  | cons p t ih =>
    obtain ⟨k, v⟩ := p
    have hwf' : (k :: Stock.keys t).Nodup := hwf
    have hk : k ∉ Stock.keys t := (List.nodup_cons.mp hwf').1
    have hwt : Stock.wf t := (List.nodup_cons.mp hwf').2
    have hcongr : ∀ x ∈ Stock.keys t,
        (match Stock.get ((k, v) :: t) x with
          | some w => decide (w < threshold)
          | none => false)
        = (match Stock.get t x with
            | some w => decide (w < threshold)
            | none => false) := by
      intro x hx
      have hxk : ¬ k = x := fun h => hk (h ▸ hx)
      simp [Stock.get, hxk]
    have hkeys : Stock.keys ((k, v) :: t) = k :: Stock.keys t := by
      simp [Stock.keys]
    have hih := ih hwt
    simp only [check_low_items] at hih ⊢
    rw [hkeys, List.filter_cons, List.filter_congr hcongr, hih]
    by_cases hv : v < threshold
    · simp [Stock.get, hv, List.filter_cons]
    · simp [Stock.get, hv, List.filter_cons]

/-- Witness for `c4_check_low_exact` at the spec's example map. -/
theorem c4_check_low_exact_witness :
    Stock.wf [("apple", 10), ("banana", 2)] ∧
    check_low_items [("apple", 10), ("banana", 2)] 5
      = (([("apple", 10), ("banana", 2)] : Stock).filter
          fun p => decide (p.2 < 5)).map Prod.fst ∧
    check_low_items [("apple", 10), ("banana", 2)] 5 = ["banana"] :=
  ⟨by decide, c4_check_low_exact _ 5 (by decide), by decide⟩

/-! ### Claim C5 -/

/-- C5: for every item name that is a string other than the sentinel
`"default"` and every negative integer quantity, `add_item` does not
reject the call: it stores the old total plus the (negative) quantity —
creating the entry at that negative value if the item was absent, since
the old total then reads as `0` — and emits only an info record. -/
theorem c5_add_negative_accepted (stock : Stock) (s : String) (q : Int)
    (hs : s ≠ "default") (hq : q < 0) :
    add_item stock (.vStr s) (.vInt q)
      = (Stock.set stock s (get_qty stock s + q), [.info]) ∧
    get_qty (add_item stock (.vStr s) (.vInt q)).1 s = get_qty stock s + q := by
  have h1 : add_item stock (.vStr s) (.vInt q)
      = (Stock.set stock s (get_qty stock s + q), [.info]) := by
    simp [add_item, hs, PyVal.isInt, PyVal.toInt, get_qty]
  refine ⟨h1, ?_⟩
  rw [h1]
  simp [get_qty, Stock.getD, Stock.get_set_self]

/-- Witness for `c5_add_negative_accepted`: adding `-4` to an absent
item creates its entry at `-4`. -/
theorem c5_add_negative_accepted_witness :
    "pear" ≠ "default" ∧ (-4 : Int) < 0 ∧
    (add_item [("apple", 10)] (.vStr "pear") (.vInt (-4))
        = (Stock.set [("apple", 10)] "pear"
            (get_qty [("apple", 10)] "pear" + (-4)), [.info]) ∧
      get_qty (add_item [("apple", 10)] (.vStr "pear") (.vInt (-4))).1 "pear"
        = get_qty [("apple", 10)] "pear" + (-4)) :=
  ⟨by decide, by decide,
    c5_add_negative_accepted [("apple", 10)] "pear" (-4)
      (by decide) (by decide)⟩

/-! ### Claim C6 -/

/-- C6: for every ledger state, `load_data` on a path whose file does
not exist, or whose file contains invalid JSON, resets the Stock Map to
empty — regardless of what the map held before — emitting a warning
(missing file) or an error (invalid JSON) log record; being a total
function of the state, it raises nothing to the caller. -/
theorem c6_load_failure_resets (fs : FileSystem) (stock : Stock)
    (file : String)
    (h : fs file = none ∨ fs file = some .invalid) :
    (load_data fs stock file).1 = [] ∧
    ((load_data fs stock file).2 = [.warning] ∨
      (load_data fs stock file).2 = [.error]) := by
  rcases h with h | h <;> simp [load_data, h]

/-- Witness for `c6_load_failure_resets` on an empty file system and a
non-empty prior Stock Map. -/
theorem c6_load_failure_resets_witness :
    ((fun _ => none : FileSystem) "inventory.json" = none ∨
      (fun _ => none : FileSystem) "inventory.json" = some .invalid) ∧
    ((load_data (fun _ => none) [("apple", 10)] "inventory.json").1 = [] ∧
      ((load_data (fun _ => none) [("apple", 10)] "inventory.json").2
          = [.warning] ∨
        (load_data (fun _ => none) [("apple", 10)] "inventory.json").2
          = [.error])) :=
  ⟨Or.inl rfl,
    c6_load_failure_resets (fun _ => none) [("apple", 10)] "inventory.json"
      (Or.inl rfl)⟩

/-! ### Claim C7 -/

/-- C7: for every ledger state, calling `add_item` with a non-string
item, with the item equal to the sentinel `"default"`, or with a
quantity that is not integer-typed, leaves the Stock Map unchanged and
emits exactly one warning log record; being a total function of the
state, it raises nothing to the caller. -/
theorem c7_add_invalid_noop (stock : Stock) (item qty : PyVal)
    (h : item.isStr = false ∨ item = .vStr "default" ∨
      qty.isInt = false) :
    add_item stock item qty = (stock, [.warning]) := by
  cases item with
  | vStr s =>
    rcases h with h | h | h
    · simp [PyVal.isStr] at h
    · have hs : s = "default" := by simpa using h
      simp [add_item, hs]
    · by_cases hs : s = "default"
      · simp [add_item, hs]
      · simp [add_item, hs, h]
  | vInt n => simp [add_item]
  | vBool b => simp [add_item]
  | vOther => simp [add_item]

/-- Witness for `c7_add_invalid_noop`: the spec's own examples
`add("default", 5)`, `add(123, 5)` and `add("apple", "ten")`. -/
theorem c7_add_invalid_noop_witness :
    ((PyVal.vStr "default").isStr = false ∨
        PyVal.vStr "default" = .vStr "default" ∨
        (PyVal.vInt 5).isInt = false) ∧
    add_item [("apple", 10)] (.vStr "default") (.vInt 5)
        = ([("apple", 10)], [.warning]) ∧
    add_item [("apple", 10)] (.vInt 123) (.vInt 5)
        = ([("apple", 10)], [.warning]) ∧
    add_item [("apple", 10)] (.vStr "apple") (.vStr "ten")
        = ([("apple", 10)], [.warning]) :=
  ⟨Or.inr (Or.inl rfl),
    c7_add_invalid_noop [("apple", 10)] (.vStr "default") (.vInt 5)
      (Or.inr (Or.inl rfl)),
    by decide, by decide⟩

/-! ### Claim C8 -/

/-- C8: for every ledger state and every string item absent from the
Stock Map, `remove_item` with an integer quantity hits the `KeyError`
branch, which is caught internally and logged as a warning: the Stock
Map is unchanged and, the operation being a total function of the
state, nothing is raised to the caller. -/
theorem c8_remove_absent_noop (stock : Stock) (s : String) (q : Int)
    (h : Stock.get stock s = none) :
    remove_item stock (.vStr s) (.vInt q) = (stock, [.warning]) := by
  simp [remove_item, h, PyVal.isInt]

/-- Witness for `c8_remove_absent_noop`: the demo's
`remove_item("orange", 1)`. -/
theorem c8_remove_absent_noop_witness :
    Stock.get [("apple", 10), ("banana", 2)] "orange" = none ∧
    remove_item [("apple", 10), ("banana", 2)] (.vStr "orange") (.vInt 1)
      = ([("apple", 10), ("banana", 2)], [.warning]) :=
  ⟨by decide,
    c8_remove_absent_noop [("apple", 10), ("banana", 2)] "orange" 1
      (by decide)⟩

/-! ### Claim C9 -/

/-- C9, counterexample: `add_item` does not require a non-empty item
name.  `add_item("", 5)` on the empty Stock Map passes both guards
(`""` is a string and differs from `"default"`), stores the entry
`{"": 5}`, and emits an info record — the empty item name is accepted
and stored, not rejected. -/
theorem c9_counterexample :
    add_item [] (.vStr "") (.vInt 5) = ([("", 5)], [.info]) ∧
    get_qty (add_item [] (.vStr "") (.vInt 5)).1 "" = 5 := by
  constructor
  · decide
  · decide

/-- C9, amended: `add_item` requires the item to be a text value
different from the sentinel `"default"`; it performs no emptiness
check, so the empty-string item name is accepted like any other and its
entry is stored in the Stock Map. -/
theorem c9_empty_name_accepted (stock : Stock) (q : Int) :
    add_item stock (.vStr "") (.vInt q)
      = (Stock.set stock "" (get_qty stock "" + q), [.info]) ∧
    Stock.get (add_item stock (.vStr "") (.vInt q)).1 "" = some (get_qty stock "" + q) := by
  have h1 : add_item stock (.vStr "") (.vInt q)
      = (Stock.set stock "" (get_qty stock "" + q), [.info]) := by
    simp [add_item, PyVal.isInt, PyVal.toInt, get_qty]
  refine ⟨h1, ?_⟩
  rw [h1]
  simp [Stock.get_set_self]

/-! ### Claim C10 -/

/-- C10: for every item present in the Stock Map with stored quantity
`v` and every negative integer `q`, `remove_item` performs no sign
check on `q`: it stores `v - q = v + |q|`, increasing the quantity, and
the entry is kept (not deleted) whenever that result is positive —
which, `q` being negative, holds in particular for every `v > 0`. -/
theorem c10_remove_negative_increases (stock : Stock) (s : String)
    (v q : Int) (hget : Stock.get stock s = some v) (hq : q < 0)
    (hpos : 0 < v - q) :
    (remove_item stock (.vStr s) (.vInt q)).1 = Stock.set stock s (v - q) ∧
    get_qty (remove_item stock (.vStr s) (.vInt q)).1 s
      = get_qty stock s + (-q) := by
  have hle : ¬ (v - q ≤ 0) := by omega
  have h1 : (remove_item stock (.vStr s) (.vInt q)).1
      = Stock.set stock s (v - q) := by
    simp [remove_item, hget, PyVal.isInt, PyVal.toInt, hle]
  refine ⟨h1, ?_⟩
  rw [h1]
  simp [get_qty, Stock.getD, Stock.get_set_self, hget]
  omega

/-- Witness for `c10_remove_negative_increases`:
`remove_item("apple", -3)` on `{"apple": 5}` leaves `apple` at `8`. -/
theorem c10_remove_negative_increases_witness :
    Stock.get [("apple", 5)] "apple" = some 5 ∧ (-3 : Int) < 0 ∧
    (0 : Int) < 5 - (-3) ∧
    ((remove_item [("apple", 5)] (.vStr "apple") (.vInt (-3))).1
        = Stock.set [("apple", 5)] "apple" (5 - (-3)) ∧
      get_qty (remove_item [("apple", 5)] (.vStr "apple") (.vInt (-3))).1
          "apple"
        = get_qty [("apple", 5)] "apple" + (-(-3))) :=
  ⟨by decide, by decide, by decide,
    c10_remove_negative_increases [("apple", 5)] "apple" 5 (-3)
      (by decide) (by decide) (by decide)⟩
